import Mathlib

/-!
Verification development for the kiro-synth engine orchestrator
(`kiro-synth-engine/src/synth.rs`).

The orchestrator `Synth` owns a fixed pool of `MaxVoices = 32` voices plus
two index collections (`active_voices`, `free_voices`, both `heapless::Vec`:
`push` appends at the end, `pop` removes from the end).  The per-voice DSP
(`Voice`), the patch (`Program`) internals and the event channel are external
collaborators: they are modelled from the spec's contract (§4.3, §6), as
their sources are not part of the orchestrator.  Machine `u8` keys carry no
arithmetic here, so they are embedded as `Nat`; the floating-point sample
type `F` is embedded as `Rat` (all operations used are `+`, `min`, `max`,
`zero`, on which `Rat` is an exact model).
-/

namespace KiroSynth

/-- `type MaxVoices = consts::U32;` — the compile-time voice-pool bound. -/
def maxVoices : Nat := 32

/-- A `Modulator { source, amount }` entry of a parameter. -/
structure Modulator where
  source : Nat
  amount : Rat
deriving DecidableEq

/-- The `values` block of a parameter (`min`, `max`, `origin`, `resolution`,
`initial_value`). -/
structure ParamValues where
  min : Rat
  max : Rat
  origin : Rat
  resolution : Rat
  initial_value : Rat
deriving DecidableEq

/-- A `Param` owned by the `Program`: `id`, current `signal` value, static
`values`, and the ordered modulator list.  The opaque `id` is kept as a
`Nat` (it is only read for logging in the orchestrator). -/
structure Param where
  id : Nat
  signal : Rat
  values : ParamValues
  modulators : List Modulator
deriving DecidableEq

/-- A modulation `Source` owned by the `Program`; only its `id` is read. -/
structure Source where
  id : Nat
deriving DecidableEq

/-- Modelled from the spec: `Program` (its source is not part of the
orchestrator) is the parameter table and the source table, addressed by
opaque integer handles, plus per-sample smoothing state.  The smoothing
state advanced by `update_params` is abstracted into a counter. -/
structure Program where
  params : List Param
  sources : List Source
  smoothCount : Nat
deriving DecidableEq

/-- Modelled from the spec: `Program::get_param` / `get_param_mut` — resolve
an opaque handle in the parameter table (`None` when it does not resolve). -/
def Program.get_param (p : Program) (param_ref : Nat) : Option Param :=
  p.params[param_ref]?

/-- Modelled from the spec: `Program::get_source` — resolve an opaque handle
in the source table. -/
def Program.get_source (p : Program) (source_ref : Nat) : Option Source :=
  p.sources[source_ref]?

/-- Modelled from the spec: `Program::update_params` advances the per-sample
parameter smoothing; the tables themselves are not touched. -/
def Program.update_params (p : Program) : Program :=
  { p with smoothCount := p.smoothCount + 1 }

/-- Modelled from the spec: the `Voice` contract of §4.3 (`voice.rs` is an
external collaborator).  A voice exclusively owns its DSP state `V`; it
reads `Program` and the globals `G` by reference and, per §4.3, never
mutates `Program`'s tables, so every operation returns only a new voice
state. -/
structure VoiceImpl (V : Type) (G : Type) where
  new : Rat → Program → V
  note_on : V → Program → Nat → Rat → V
  note_off : V → Program → V
  process : V → Program → G → V
  output : V → Program → Rat × Rat
  is_off : V → Program → Bool
  get_key : V → Program → Nat

/-- `heapless::Vec::push` — appends at the end.  Capacity failures are
ignored by the source (`drop(...push(...))`) and never occur on reachable
states, so the model is unbounded. -/
def vecPush {α : Type} (l : List α) (x : α) : List α :=
  l ++ [x]

/-- `heapless::Vec::pop` — removes and returns the last element. -/
def vecPop {α : Type} (l : List α) : Option (α × List α) :=
  match l.getLast? with
  | none => none
  | some x => some (x, l.dropLast)

/-- `heapless::Vec::swap_remove i` — overwrite position `i` with the last
element, then drop the last element. -/
def swapRemove {α : Type} (l : List α) (i : Nat) : List α :=
  match l.getLast? with
  | none => l
  | some x => (l.set i x).dropLast

/-- The state of `Synth` (the `events: Consumer<…>` end of the channel is
externalized: `prepare` below takes the drained FIFO contents as a list). -/
structure Synth (V : Type) (G : Type) where
  _sample_rate : Rat
  program : Program
  globals : G
  voices : List V
  active_voices : List Nat
  free_voices : List Nat

/-- The `Message` protocol. -/
inductive Message where
  | noteOn (key : Nat) (velocity : Rat)
  | noteOff (key : Nat) (velocity : Rat)
  | param (param_ref : Nat) (value : Rat)
  | paramChange (param_ref : Nat) (change : Rat)
  | modulationAmount (param_ref : Nat) (source_ref : Nat) (amount : Rat)
deriving DecidableEq

/-- An `Event { timestamp, message }`. -/
structure Event where
  timestamp : Nat
  message : Message
deriving DecidableEq

variable {V G : Type}

/-- `Synth::new` — builds the pool: for `index in 0..MaxVoices` it pushes a
fresh voice and pushes the free index `MaxVoices - index - 1`, so
`free_voices = [31, 30, …, 0]` and `active_voices = []`. -/
def Synth.new (impl : VoiceImpl V G) (sample_rate : Rat) (program : Program)
    (globals : G) : Synth V G :=
  { _sample_rate := sample_rate
    program := program
    globals := globals
    voices := (List.range maxVoices).map (fun _ => impl.new sample_rate program)
    active_voices := []
    free_voices := (List.range maxVoices).map (fun index => maxVoices - index - 1) }

/-- `Synth::allocate_voice` — pops one index from the free stack, ignoring
key and velocity.  Functionally it returns the popped index together with
the remaining stack. -/
def Synth.allocate_voice (s : Synth V G) (_key : Nat) (_velocity : Rat) :
    Option (Nat × List Nat) :=
  vecPop s.free_voices

/-- `Synth::note_on` — on successful allocation, push the index onto
`active_voices` and trigger that voice with the supplied key and velocity.
(Indexing `voices[index]` cannot be out of range on reachable states; the
out-of-range case leaves the pool unchanged.) -/
def Synth.note_on (impl : VoiceImpl V G) (s : Synth V G) (key : Nat)
    (velocity : Rat) : Synth V G :=
  match s.allocate_voice key velocity with
  | none => s
  | some (index, rest) =>
    let s1 : Synth V G :=
      { s with free_voices := rest, active_voices := vecPush s.active_voices index }
    match s1.voices[index]? with
    | some voice =>
      { s1 with voices := s1.voices.set index (impl.note_on voice s1.program key velocity) }
    | none => s1

/-- One iteration of the `Synth::note_off` scan: transition the voice at
`voice_index` to release when its recorded key matches. -/
def noteOffStep (impl : VoiceImpl V G) (program : Program) (key : Nat)
    (vs : List V) (voice_index : Nat) : List V :=
  match vs[voice_index]? with
  | some voice =>
    if impl.get_key voice program = key then
      vs.set voice_index (impl.note_off voice program)
    else vs
  | none => vs

/-- `Synth::note_off` — scans all currently active voices (the index list is
not modified by the loop) and releases every voice whose key matches. -/
def Synth.note_off (impl : VoiceImpl V G) (s : Synth V G) (key : Nat)
    (_velocity : Rat) : Synth V G :=
  { s with voices := s.active_voices.foldl (noteOffStep impl s.program key) s.voices }

/-- Find-first-and-set of `Message::ModulationAmount`:
`param.modulators.iter_mut().find(|m| m.source == source_ref).map(|m| m.amount = amount)`. -/
def updateModAmount (source_ref : Nat) (amount : Rat) :
    List Modulator → List Modulator
  | [] => []
  | m :: rest =>
    if m.source = source_ref then { m with amount := amount } :: rest
    else m :: updateModAmount source_ref amount rest

/-- The effect of one popped message inside `Synth::prepare`'s drain loop. -/
def applyMessage (impl : VoiceImpl V G) (s : Synth V G) : Message → Synth V G
  | .noteOn key velocity => Synth.note_on impl s key velocity
  | .noteOff key velocity => Synth.note_off impl s key velocity
  | .param param_ref value =>
    match s.program.get_param param_ref with
    | some p =>
      let p1 : Param := { p with signal := value }
      { s with program := { s.program with params := s.program.params.set param_ref p1 } }
    | none => s
  | .paramChange param_ref change =>
    match s.program.get_param param_ref with
    | some p =>
      let value := p.signal + change
      let value := max (min value p.values.max) p.values.min
      let p1 : Param := { p with signal := value }
      { s with program := { s.program with params := s.program.params.set param_ref p1 } }
    | none => s
  | .modulationAmount param_ref source_ref amount =>
    match s.program.get_source source_ref with
    | some _ =>
      match s.program.get_param param_ref with
      | some p =>
        let p1 : Param := { p with modulators := updateModAmount source_ref amount p.modulators }
        { s with program := { s.program with params := s.program.params.set param_ref p1 } }
      | none => s
    | none => s

/-- `Synth::prepare` — drains the channel to emptiness, applying each popped
event's message in FIFO order; the `timestamp` field is never read. -/
def Synth.prepare (impl : VoiceImpl V G) (s : Synth V G) (events : List Event) :
    Synth V G :=
  events.foldl (fun acc e => applyMessage impl acc e.message) s

theorem swapRemove_length {α : Type} (l : List α) (i : Nat) (h : l ≠ []) :
    (swapRemove l i).length = l.length - 1 := by
  unfold swapRemove
  match hl : l.getLast? with
  | none => exact absurd (List.getLast?_eq_none_iff.mp hl) h
  | some x => simp

/-- The `while active_voice_index < active_voices.len()` loop of
`Synth::process`: advance the voice at cursor `i` one sample, accumulate its
stereo output, and either recycle it (swap-remove from `active_voices`, push
onto `free_voices`, cursor stays) or advance the cursor. -/
def processLoop (impl : VoiceImpl V G) (s : Synth V G) (i : Nat)
    (left right : Rat) : Synth V G × Rat × Rat :=
  if h : i < s.active_voices.length then
    let voice_index := s.active_voices[i]
    match s.voices[voice_index]? with
    | none => (s, left, right)
    | some voice =>
      let voice := impl.process voice s.program s.globals
      let s1 : Synth V G := { s with voices := s.voices.set voice_index voice }
      let out := impl.output voice s1.program
      if impl.is_off voice s1.program then
        processLoop impl
          { s1 with active_voices := swapRemove s1.active_voices i,
                    free_voices := vecPush s1.free_voices voice_index }
          i (left + out.1) (right + out.2)
      else
        processLoop impl s1 (i + 1) (left + out.1) (right + out.2)
  else (s, left, right)
termination_by s.active_voices.length - i
decreasing_by
  · have hne : s.active_voices ≠ [] := by
      intro hnil
      rw [hnil] at h
      simp at h
    simp only [swapRemove_length _ _ hne]
    omega
  · omega

/-- `Synth::process` — run the voice loop from cursor `0` with zero
accumulators, then advance the program's parameter smoothing once, and
return the accumulated stereo pair. -/
def Synth.process (impl : VoiceImpl V G) (s : Synth V G) : Synth V G × Rat × Rat :=
  let r := processLoop impl s 0 0 0
  ({ r.1 with program := r.1.program.update_params }, r.2.1, r.2.2)

/-- The states of a `Synth` reachable from construction by any sequence of
`prepare` (with any drained event list) and `process` calls. -/
inductive Reachable (impl : VoiceImpl V G) : Synth V G → Prop where
  | new : ∀ sample_rate program globals,
      Reachable impl (Synth.new impl sample_rate program globals)
  | prepare : ∀ s events, Reachable impl s →
      Reachable impl (Synth.prepare impl s events)
  | process : ∀ s, Reachable impl s →
      Reachable impl (Synth.process impl s).1

/-! ### Concrete instantiation used to evaluate the theorems -/

/-- A simple concrete voice state: the recorded key and a tick counter. -/
structure TestVoice where
  key : Nat
  ticks : Nat
deriving DecidableEq

/-- A concrete `VoiceImpl`: `note_on` records the key, `process` counts
ticks, a voice reports completion after two ticks, and every voice outputs
the constant stereo pair `(1, 2)`. -/
def testImpl : VoiceImpl TestVoice Unit where
  new _ _ := { key := 0, ticks := 0 }
  note_on v _ key _ := { v with key := key, ticks := 0 }
  note_off v _ := v
  process v _ _ := { v with ticks := v.ticks + 1 }
  output _ _ := (1, 2)
  is_off v _ := 2 ≤ v.ticks
  get_key v _ := v.key

/-- A concrete parameter with range `[0, 1]`, current signal `9/10`, and two
pre-existing modulator slots. -/
def testParam : Param :=
  { id := 0
    signal := 9/10
    values := { min := 0, max := 1, origin := 0, resolution := 1/100, initial_value := 0 }
    modulators := [{ source := 0, amount := 0 }, { source := 1, amount := 1/2 }] }

/-- A concrete program: the single parameter `testParam` and two sources. -/
def testProgram : Program :=
  { params := [testParam]
    sources := [{ id := 5 }, { id := 7 }]
    smoothCount := 0 }

/-- A freshly constructed synth. -/
def testSynth : Synth TestVoice Unit :=
  Synth.new testImpl 1 testProgram ()

/-- The fresh synth after draining two `NoteOn` events. -/
def testSynth2 : Synth TestVoice Unit :=
  Synth.prepare testImpl testSynth
    [{ timestamp := 3, message := .noteOn 60 1 }, { timestamp := 9, message := .noteOn 62 2 }]

/-- A synth with voices `0` (key 60, one tick already elapsed) and `1`
(key 62, fresh) active; voice `0` reports completion during the next
`process` call, voice `1` does not. -/
def testSynth3 : Synth TestVoice Unit :=
  { _sample_rate := 1
    program := testProgram
    globals := ()
    voices := { key := 60, ticks := 1 } :: { key := 62, ticks := 0 }
      :: List.replicate 30 { key := 0, ticks := 0 }
    active_voices := [0, 1]
    free_voices := (List.range 30).map (fun index => 31 - index) }

/-- A synth whose voice pool is exhausted (`free_voices` empty). -/
def testSynthFull : Synth TestVoice Unit :=
  { _sample_rate := 1
    program := testProgram
    globals := ()
    voices := List.replicate maxVoices { key := 0, ticks := 0 }
    active_voices := List.range maxVoices
    free_voices := [] }

/-! ### General list helpers -/

theorem list_set_self {α : Type} :
    ∀ (l : List α) (i : Nat) (a : α), l[i]? = some a → l.set i a = l
  | [], _, _, h => by simp at h
  | x :: t, 0, a, h => by simp at h; simp [h]
  | x :: t, i+1, a, h => by
    simp only [List.getElem?_cons_succ] at h
    simp [List.set, list_set_self t i a h]

/-! ### C2 / C3: note allocation -/

/-- **C2.** A `NoteOn` with `free_voices` non-empty moves exactly the most
recently freed index (the top of the LIFO free stack) from `free_voices` to
the end of `active_voices`, triggers exactly that voice with the supplied
key and velocity, and touches nothing else. -/
theorem noteOn_allocates_lifo (impl : VoiceImpl V G) (s : Synth V G)
    (key : Nat) (velocity : Rat) (index : Nat) (voice : V)
    (hfree : s.free_voices.getLast? = some index)
    (hvoice : s.voices[index]? = some voice) :
    (Synth.note_on impl s key velocity).free_voices = s.free_voices.dropLast ∧
    (Synth.note_on impl s key velocity).active_voices = s.active_voices ++ [index] ∧
    (Synth.note_on impl s key velocity).voices
      = s.voices.set index (impl.note_on voice s.program key velocity) ∧
    (Synth.note_on impl s key velocity).program = s.program ∧
    (Synth.note_on impl s key velocity).globals = s.globals := by
  simp [Synth.note_on, Synth.allocate_voice, vecPop, vecPush, hfree, hvoice]

/-- Witness for C2: on a fresh synth (free stack `[31, …, 0]`) a
`NoteOn 60` allocates voice `0` — the most recently pushed free index. -/
theorem noteOn_allocates_lifo_witness :
    testSynth.free_voices.getLast? = some 0 ∧
    testSynth.voices[0]? = some { key := 0, ticks := 0 } ∧
    (Synth.note_on testImpl testSynth 60 1).active_voices = [0] ∧
    (Synth.note_on testImpl testSynth 60 1).voices[0]?
      = some { key := 60, ticks := 0 } := by
  have h := noteOn_allocates_lifo testImpl testSynth 60 1 0 { key := 0, ticks := 0 }
    (by decide) (by decide)
  refine ⟨by decide, by decide, h.2.1.trans (by decide), ?_⟩
  rw [h.2.2.1]
  decide

/-- **C3.** A `NoteOn` with `free_voices` empty is dropped with no side
effects at all: the synth state is unchanged. -/
theorem noteOn_dropped_when_no_free_voice (impl : VoiceImpl V G) (s : Synth V G)
    (key : Nat) (velocity : Rat) (hfree : s.free_voices = []) :
    Synth.note_on impl s key velocity = s := by
  simp [Synth.note_on, Synth.allocate_voice, vecPop, hfree]

/-- Witness for C3 on a pool-exhausted synth. -/
theorem noteOn_dropped_when_no_free_voice_witness :
    testSynthFull.free_voices = [] ∧
    Synth.note_on testImpl testSynthFull 64 1 = testSynthFull :=
  ⟨rfl, noteOn_dropped_when_no_free_voice testImpl testSynthFull 64 1 rfl⟩

/-! ### C9: FIFO drain, timestamps unused -/

/-- **C9.** `prepare` applies the drained events' messages in exactly their
FIFO order (a left fold of `applyMessage` over the message sequence), and
the `timestamp` field is never used: two event sequences with the same
messages produce identical states. -/
theorem prepare_fifo_timestamp_independent (impl : VoiceImpl V G) (s : Synth V G)
    (events1 events2 : List Event)
    (h : events1.map Event.message = events2.map Event.message) :
    Synth.prepare impl s events1
      = (events1.map Event.message).foldl (applyMessage impl) s ∧
    Synth.prepare impl s events1 = Synth.prepare impl s events2 := by
  have key : ∀ (es : List Event),
      Synth.prepare impl s es = (es.map Event.message).foldl (applyMessage impl) s := by
    intro es
    rw [List.foldl_map]
    rfl
  refine ⟨key events1, ?_⟩
  rw [key events1, key events2, h]

/-- Witness for C9: the same two messages under different timestamps yield
the same state, and that state is the FIFO fold. -/
theorem prepare_fifo_timestamp_independent_witness :
    ([{ timestamp := 3, message := .noteOn 60 1 }, { timestamp := 9, message := .noteOn 62 2 }] :
        List Event).map Event.message
      = ([{ timestamp := 100, message := .noteOn 60 1 }, { timestamp := 0, message := .noteOn 62 2 }] :
        List Event).map Event.message ∧
    testSynth2
      = Synth.prepare testImpl testSynth
          [{ timestamp := 100, message := .noteOn 60 1 }, { timestamp := 0, message := .noteOn 62 2 }] :=
  ⟨by decide,
   (prepare_fifo_timestamp_independent testImpl testSynth
      [{ timestamp := 3, message := .noteOn 60 1 }, { timestamp := 9, message := .noteOn 62 2 }]
      [{ timestamp := 100, message := .noteOn 60 1 }, { timestamp := 0, message := .noteOn 62 2 }]
      (by decide)).2⟩

/-! ### C10: effect separation of prepare messages -/

/-- **C10.** `Param`, `ParamChange` and `ModulationAmount` messages never
touch `active_voices`, `free_voices` or any voice — only the program; and
`NoteOn` / `NoteOff` messages never touch the program's tables or smoothing
state. -/
theorem prepare_effect_separation (impl : VoiceImpl V G) (s : Synth V G)
    (key : Nat) (velocity : Rat) (param_ref source_ref : Nat)
    (value change amount : Rat) :
    ((applyMessage impl s (.param param_ref value)).active_voices = s.active_voices ∧
     (applyMessage impl s (.param param_ref value)).free_voices = s.free_voices ∧
     (applyMessage impl s (.param param_ref value)).voices = s.voices) ∧
    ((applyMessage impl s (.paramChange param_ref change)).active_voices = s.active_voices ∧
     (applyMessage impl s (.paramChange param_ref change)).free_voices = s.free_voices ∧
     (applyMessage impl s (.paramChange param_ref change)).voices = s.voices) ∧
    ((applyMessage impl s (.modulationAmount param_ref source_ref amount)).active_voices
        = s.active_voices ∧
     (applyMessage impl s (.modulationAmount param_ref source_ref amount)).free_voices
        = s.free_voices ∧
     (applyMessage impl s (.modulationAmount param_ref source_ref amount)).voices = s.voices) ∧
    (applyMessage impl s (.noteOn key velocity)).program = s.program ∧
    (applyMessage impl s (.noteOff key velocity)).program = s.program := by
  refine ⟨?_, ?_, ?_, ?_, ?_⟩
  · cases h : s.program.get_param param_ref <;> simp [applyMessage, h]
  · cases h : s.program.get_param param_ref <;> simp [applyMessage, h]
  · cases hs : s.program.get_source source_ref with
    | none => simp [applyMessage, hs]
    | some src =>
      cases h : s.program.get_param param_ref <;> simp [applyMessage, hs, h]
  · show (Synth.note_on impl s key velocity).program = s.program
    unfold Synth.note_on
    cases ha : s.allocate_voice key velocity with
    | none => rfl
    | some iv =>
      obtain ⟨index, rest⟩ := iv
      simp only
      cases hv : (s.voices)[index]? <;> simp
  · rfl

/-! ### C6: NoteOff releases all matching voices -/

/-- Semantics of the `note_off` scan: folding `noteOffStep` over a
duplicate-free index list releases exactly the in-range indices whose
recorded key matches and leaves every other position untouched. -/
theorem noteOffFold_sem (impl : VoiceImpl V G) (program : Program) (key : Nat) :
    ∀ (l : List Nat) (vs : List V), l.Nodup → (∀ idx ∈ l, idx < vs.length) →
      (∀ idx, idx ∉ l → (l.foldl (noteOffStep impl program key) vs)[idx]? = vs[idx]?) ∧
      (∀ idx voice, idx ∈ l → vs[idx]? = some voice →
        (l.foldl (noteOffStep impl program key) vs)[idx]?
          = some (if impl.get_key voice program = key
                  then impl.note_off voice program else voice))
  | [], vs, _, _ => by simp
  | a :: rest, vs, hnd, hlt => by
    obtain ⟨ha, hnd'⟩ := List.nodup_cons.mp hnd
    have hlta : a < vs.length := hlt a (by simp)
    obtain ⟨va, hva⟩ : ∃ v, vs[a]? = some v := ⟨vs[a], List.getElem?_eq_getElem hlta⟩
    have hstep : noteOffStep impl program key vs a
        = if impl.get_key va program = key
          then vs.set a (impl.note_off va program) else vs := by
      simp [noteOffStep, hva]
    have hlen : (noteOffStep impl program key vs a).length = vs.length := by
      rw [hstep]; split <;> simp
    have hlt' : ∀ idx ∈ rest, idx < (noteOffStep impl program key vs a).length := by
      intro idx hidx
      rw [hlen]
      exact hlt idx (by simp [hidx])
    have ih := noteOffFold_sem impl program key rest (noteOffStep impl program key vs a) hnd' hlt'
    have hpres : ∀ idx, idx ≠ a → (noteOffStep impl program key vs a)[idx]? = vs[idx]? := by
      intro idx hne
      rw [hstep]
      split
      · exact List.getElem?_set_ne (fun hh => hne hh.symm)
      · rfl
    constructor
    · intro idx hidx
      simp only [List.foldl_cons]
      rw [ih.1 idx (fun hm => hidx (by simp [hm]))]
      exact hpres idx (fun he => hidx (by simp [he]))
    · intro idx voice hmem hvidx
      simp only [List.foldl_cons]
      rcases List.mem_cons.mp hmem with he | hmemr
      · subst he
        have hv : voice = va := by
          rw [hva] at hvidx
          exact (Option.some.inj hvidx).symm
        subst hv
        rw [ih.1 idx ha, hstep]
        by_cases hkey : impl.get_key voice program = key
        · simp [hkey, List.getElem?_set_self hlta]
        · simp [hkey, hva]
      · have hne : idx ≠ a := fun he => ha (he ▸ hmemr)
        have hvs' : (noteOffStep impl program key vs a)[idx]? = some voice := by
          rw [hpres idx hne]
          exact hvidx
        exact ih.2 idx voice hmemr hvs'

/-- **C6.** `NoteOff{key}` transitions *every* active voice whose recorded
key equals `key` to release (`note_off`), leaves every active voice with a
differing key untouched, leaves inactive voices untouched, and changes
neither the index collections nor the program. -/
theorem noteOff_releases_all_matching (impl : VoiceImpl V G) (s : Synth V G)
    (key : Nat) (velocity : Rat)
    (hnd : s.active_voices.Nodup)
    (hlt : ∀ idx ∈ s.active_voices, idx < s.voices.length) :
    (Synth.note_off impl s key velocity).active_voices = s.active_voices ∧
    (Synth.note_off impl s key velocity).free_voices = s.free_voices ∧
    (Synth.note_off impl s key velocity).program = s.program ∧
    (∀ idx voice, idx ∈ s.active_voices → s.voices[idx]? = some voice →
      (Synth.note_off impl s key velocity).voices[idx]?
        = some (if impl.get_key voice s.program = key
                then impl.note_off voice s.program else voice)) ∧
    (∀ idx, idx ∉ s.active_voices →
      (Synth.note_off impl s key velocity).voices[idx]? = s.voices[idx]?) := by
  have h := noteOffFold_sem impl s.program key s.active_voices s.voices hnd hlt
  exact ⟨rfl, rfl, rfl, fun idx voice hm hv => h.2 idx voice hm hv, fun idx hm => h.1 idx hm⟩

/-- Witness for C6: with voices `0 ↦ key 60` and `1 ↦ key 62` active,
`NoteOff 60` releases voice `0` and leaves voice `1` untouched. -/
theorem noteOff_releases_all_matching_witness :
    testSynth2.active_voices.Nodup ∧
    (Synth.note_off testImpl testSynth2 60 0).voices[0]?
      = some (testImpl.note_off { key := 60, ticks := 0 } testSynth2.program) ∧
    (Synth.note_off testImpl testSynth2 60 0).voices[1]?
      = some { key := 62, ticks := 0 } := by
  have h := noteOff_releases_all_matching testImpl testSynth2 60 0 (by decide) (by decide)
  refine ⟨by decide, ?_, ?_⟩
  · rw [h.2.2.2.1 0 { key := 60, ticks := 0 } (by decide) (by decide)]
    simp [testImpl]
  · rw [h.2.2.2.1 1 { key := 62, ticks := 0 } (by decide) (by decide)]
    simp [testImpl]

/-! ### C7: Param sets are unclamped, ParamChange deltas are clamped -/

/-- **C7.** A resolving `Param{value}` sets the parameter's signal directly
to `value` with no clamping; a resolving `ParamChange{delta}` sets it to
`clamp(current + delta, min, max)`; an unresolved handle makes either
message a no-op. -/
theorem param_set_unclamped_paramChange_clamped (impl : VoiceImpl V G)
    (s : Synth V G) (param_ref : Nat) (value change : Rat) :
    (∀ p, s.program.get_param param_ref = some p →
       (applyMessage impl s (.param param_ref value)).program.get_param param_ref
         = some { p with signal := value } ∧
       (applyMessage impl s (.paramChange param_ref change)).program.get_param param_ref
         = some { p with signal := max (min (p.signal + change) p.values.max) p.values.min }) ∧
    (s.program.get_param param_ref = none →
       applyMessage impl s (.param param_ref value) = s ∧
       applyMessage impl s (.paramChange param_ref change) = s) := by
  constructor
  · intro p hp
    have hp' : s.program.params[param_ref]? = some p := hp
    have hlt : param_ref < s.program.params.length := (List.getElem?_eq_some.mp hp').1
    constructor
    · simp [applyMessage, Program.get_param, hp', List.getElem?_set_self hlt]
    · simp [applyMessage, Program.get_param, hp', List.getElem?_set_self hlt]
  · intro hp
    constructor <;> simp [applyMessage, hp]

/-- Witness for C7 on `testParam` (`min = 0`, `max = 1`, `signal = 9/10`):
a direct set to `2` lands outside `[0, 1]` unclamped, while a delta of
`1/2` clamps to exactly `1`. -/
theorem param_set_unclamped_paramChange_clamped_witness :
    testSynth.program.get_param 0 = some testParam ∧
    (applyMessage testImpl testSynth (.param 0 2)).program.get_param 0
      = some { testParam with signal := 2 } ∧
    (applyMessage testImpl testSynth (.paramChange 0 (1/2))).program.get_param 0
      = some { testParam with signal := 1 } := by
  have h := (param_set_unclamped_paramChange_clamped testImpl testSynth 0 2 (1/2)).1
    testParam rfl
  refine ⟨rfl, h.1, ?_⟩
  rw [h.2]
  norm_num [testParam]

/-! ### C8: ModulationAmount updates an existing entry or is dropped -/

/-- `updateModAmount` is the identity when no modulator entry matches. -/
theorem updateModAmount_no_match (source_ref : Nat) (amount : Rat) :
    ∀ (ms : List Modulator), (∀ m ∈ ms, m.source ≠ source_ref) →
      updateModAmount source_ref amount ms = ms
  | [], _ => rfl
  | m :: rest, h => by
    simp only [updateModAmount]
    rw [if_neg (h m (by simp)),
      updateModAmount_no_match source_ref amount rest (fun m' hm' => h m' (by simp [hm']))]

/-- `updateModAmount` overwrites exactly the amount of the first matching
modulator entry. -/
theorem updateModAmount_first_match (source_ref : Nat) (amount : Rat) :
    ∀ (ms : List Modulator) (j : Nat) (m : Modulator),
      ms[j]? = some m → m.source = source_ref →
      (∀ k, k < j → ∀ m', ms[k]? = some m' → m'.source ≠ source_ref) →
      updateModAmount source_ref amount ms = ms.set j { m with amount := amount }
  | [], j, m, hj, _, _ => by simp at hj
  | x :: rest, 0, m, hj, hm, _ => by
    simp only [List.getElem?_cons_zero, Option.some.injEq] at hj
    subst hj
    simp [updateModAmount, hm]
  | x :: rest, j + 1, m, hj, hm, hfirst => by
    simp only [List.getElem?_cons_succ] at hj
    have hx : x.source ≠ source_ref := hfirst 0 (Nat.succ_pos j) x (by simp)
    simp only [updateModAmount, if_neg hx, List.set]
    rw [updateModAmount_first_match source_ref amount rest j m hj hm
      (fun k hk m' hm' => hfirst (k + 1) (Nat.succ_lt_succ hk) m' (by simp [hm']))]

/-- **C8.** A `ModulationAmount` whose source and parameter both resolve and
whose parameter has a modulator entry for that source overwrites only the
first such entry's amount (no entry is created or removed, other parameters
and the source table are untouched); if no entry matches, or either handle
fails to resolve, the message is a no-op. -/
theorem modulationAmount_updates_existing_only (impl : VoiceImpl V G)
    (s : Synth V G) (param_ref source_ref : Nat) (amount : Rat) :
    (∀ src p, s.program.get_source source_ref = some src →
       s.program.get_param param_ref = some p →
       ((∀ m ∈ p.modulators, m.source ≠ source_ref) →
          applyMessage impl s (.modulationAmount param_ref source_ref amount) = s) ∧
       (∀ j m, p.modulators[j]? = some m → m.source = source_ref →
          (∀ k, k < j → ∀ m', p.modulators[k]? = some m' → m'.source ≠ source_ref) →
          (applyMessage impl s (.modulationAmount param_ref source_ref amount)).program.get_param
              param_ref
            = some { p with modulators := p.modulators.set j { m with amount := amount } } ∧
          (applyMessage impl s (.modulationAmount param_ref source_ref amount)).program.sources
            = s.program.sources ∧
          (∀ r, r ≠ param_ref →
            (applyMessage impl s
                (.modulationAmount param_ref source_ref amount)).program.get_param r
              = s.program.get_param r))) ∧
    (s.program.get_source source_ref = none →
       applyMessage impl s (.modulationAmount param_ref source_ref amount) = s) ∧
    (s.program.get_param param_ref = none →
       applyMessage impl s (.modulationAmount param_ref source_ref amount) = s) := by
  refine ⟨?_, ?_, ?_⟩
  · intro src p hsrc hp
    have hp' : s.program.params[param_ref]? = some p := hp
    have hlt : param_ref < s.program.params.length := (List.getElem?_eq_some.mp hp').1
    constructor
    · intro hno
      simp only [applyMessage, hsrc, hp, updateModAmount_no_match source_ref amount p.modulators hno]
      rw [list_set_self s.program.params param_ref p hp']
    · intro j m hj hm hfirst
      refine ⟨?_, by simp [applyMessage, hsrc, hp], ?_⟩
      · simp only [applyMessage, hsrc, hp]
        rw [updateModAmount_first_match source_ref amount p.modulators j m hj hm hfirst]
        simp only [Program.get_param]
        exact List.getElem?_set_self hlt
      · intro r hr
        simp only [applyMessage, hsrc, hp]
        simp only [Program.get_param]
        exact List.getElem?_set_ne (fun he => hr he.symm)
  · intro hsrc
    simp [applyMessage, hsrc]
  · intro hp
    cases hsrc : s.program.get_source source_ref <;> simp [applyMessage, hsrc, hp]

/-- Witness for C8: updating the amount of the existing `(source 0, param 0)`
modulator entry to `3` rewrites only that entry. -/
theorem modulationAmount_updates_existing_only_witness :
    testSynth.program.get_source 0 = some { id := 5 } ∧
    testParam.modulators[0]? = some { source := 0, amount := 0 } ∧
    (applyMessage testImpl testSynth (.modulationAmount 0 0 3)).program.get_param 0
      = some { testParam with
                 modulators := testParam.modulators.set 0 { source := 0, amount := 3 } } := by
  have h := ((modulationAmount_updates_existing_only testImpl testSynth 0 0 3).1
      { id := 5 } testParam rfl rfl).2 0 { source := 0, amount := 0 } rfl rfl
      (fun k hk => absurd hk (Nat.not_lt_zero k))
  exact ⟨rfl, rfl, h.1⟩

/-! ### Structure of `swap_remove` -/

theorem getLast_cons_dropLast_perm {α : Type} (ys : List α) (h : ys ≠ []) :
    (ys.getLast h :: ys.dropLast).Perm ys := by
  conv_rhs => rw [← List.dropLast_append_getLast h]
  exact (List.perm_append_singleton _ _).symm

theorem swapRemove_eq {α : Type} (l : List α) (i : Nat) (h : i < l.length)
    (hne : l ≠ []) :
    swapRemove l i = l.take i ++ (l.getLast hne :: l.drop (i + 1)).dropLast := by
  unfold swapRemove
  rw [List.getLast?_eq_getLast l hne]
  simp only
  rw [List.set_eq_take_cons_drop _ h, List.dropLast_append_of_ne_nil _ (by simp)]

theorem swapRemove_take {α : Type} (l : List α) (i : Nat) (h : i < l.length) :
    (swapRemove l i).take i = l.take i := by
  have hne : l ≠ [] := List.ne_nil_of_length_pos (Nat.lt_of_le_of_lt (Nat.zero_le i) h)
  rw [swapRemove_eq l i h hne]
  exact List.take_left' (List.length_take_of_le (Nat.le_of_lt h))

theorem swapRemove_drop_perm {α : Type} (l : List α) (i : Nat) (h : i < l.length) :
    ((swapRemove l i).drop i).Perm (l.drop (i + 1)) := by
  have hne : l ≠ [] := List.ne_nil_of_length_pos (Nat.lt_of_le_of_lt (Nat.zero_le i) h)
  rw [swapRemove_eq l i h hne,
    List.drop_left' (List.length_take_of_le (Nat.le_of_lt h))]
  rcases eq_or_ne (l.drop (i + 1)) [] with hd | hd
  · simp [hd]
  · rw [List.dropLast_cons_of_ne_nil hd, ← List.getLast_drop hd]
    exact getLast_cons_dropLast_perm (l.drop (i + 1)) hd

theorem swapRemove_perm_eraseIdx {α : Type} (l : List α) (i : Nat)
    (h : i < l.length) : (swapRemove l i).Perm (l.eraseIdx i) := by
  rw [List.eraseIdx_eq_take_drop_succ]
  conv_lhs => rw [← List.take_append_drop i (swapRemove l i)]
  rw [swapRemove_take l i h]
  exact (swapRemove_drop_perm l i h).append_left (l.take i)

/-! ### Per-index semantics of the `process` loop body -/

/-- The one-sample-advanced voice stored at `idx` (`voice.process(...)`). -/
def procV (impl : VoiceImpl V G) (prog : Program) (g : G) (vs : List V)
    (idx : Nat) : Option V :=
  (vs[idx]?).map (fun v => impl.process v prog g)

/-- Left output sample of the advanced voice at `idx` (`0` out of range). -/
def outL (impl : VoiceImpl V G) (prog : Program) (g : G) (vs : List V)
    (idx : Nat) : Rat :=
  match procV impl prog g vs idx with
  | some v => (impl.output v prog).1
  | none => 0

/-- Right output sample of the advanced voice at `idx` (`0` out of range). -/
def outR (impl : VoiceImpl V G) (prog : Program) (g : G) (vs : List V)
    (idx : Nat) : Rat :=
  match procV impl prog g vs idx with
  | some v => (impl.output v prog).2
  | none => 0

/-- Whether the voice at `idx` is still sounding after being advanced
(`!is_off`); the loop keeps exactly these indices active. -/
def survives (impl : VoiceImpl V G) (prog : Program) (g : G) (vs : List V)
    (idx : Nat) : Bool :=
  match procV impl prog g vs idx with
  | some v => ! impl.is_off v prog
  | none => true

theorem loopBody_congr (impl : VoiceImpl V G) (prog : Program) (g : G)
    (vs₁ vs₂ : List V) (idx : Nat) (h : vs₁[idx]? = vs₂[idx]?) :
    procV impl prog g vs₁ idx = procV impl prog g vs₂ idx ∧
    outL impl prog g vs₁ idx = outL impl prog g vs₂ idx ∧
    outR impl prog g vs₁ idx = outR impl prog g vs₂ idx ∧
    survives impl prog g vs₁ idx = survives impl prog g vs₂ idx := by
  refine ⟨?_, ?_, ?_, ?_⟩ <;> simp [procV, outL, outR, survives, h]

/-! ### Unfolding equations of the `process` loop -/

theorem processLoop_exit (impl : VoiceImpl V G) (s : Synth V G) (i : Nat)
    (l r : Rat) (h : ¬ i < s.active_voices.length) :
    processLoop impl s i l r = (s, l, r) := by
  rw [processLoop, dif_neg h]

theorem processLoop_step_died (impl : VoiceImpl V G) (s : Synth V G) (i : Nat)
    (l r : Rat) (h : i < s.active_voices.length) (voice : V)
    (hv : s.voices[s.active_voices[i]]? = some voice)
    (hoff : impl.is_off (impl.process voice s.program s.globals) s.program = true) :
    processLoop impl s i l r
      = processLoop impl
          { s with
              voices := s.voices.set s.active_voices[i]
                (impl.process voice s.program s.globals),
              active_voices := swapRemove s.active_voices i,
              free_voices := vecPush s.free_voices s.active_voices[i] }
          i (l + (impl.output (impl.process voice s.program s.globals) s.program).1)
          (r + (impl.output (impl.process voice s.program s.globals) s.program).2) := by
  rw [processLoop, dif_pos h]
  simp only [hv, hoff]
  simp

theorem processLoop_step_alive (impl : VoiceImpl V G) (s : Synth V G) (i : Nat)
    (l r : Rat) (h : i < s.active_voices.length) (voice : V)
    (hv : s.voices[s.active_voices[i]]? = some voice)
    (hoff : impl.is_off (impl.process voice s.program s.globals) s.program = false) :
    processLoop impl s i l r
      = processLoop impl
          { s with
              voices := s.voices.set s.active_voices[i]
                (impl.process voice s.program s.globals) }
          (i + 1)
          (l + (impl.output (impl.process voice s.program s.globals) s.program).1)
          (r + (impl.output (impl.process voice s.program s.globals) s.program).2) := by
  rw [processLoop, dif_pos h]
  simp only [hv, hoff]
  simp

/-- Master specification of the `process` cursor loop, by induction on the
number of remaining cursor positions.  Relative to the snapshot `s` taken at
cursor `i`: the loop advances exactly the voices listed from the cursor on
(each exactly once), accumulates their outputs into the running sums, keeps
the already-visited prefix of `active_voices` in place, retains the
surviving remainder in some order, and appends the finished indices to
`free_voices`. -/
theorem processLoop_spec (impl : VoiceImpl V G) :
    ∀ (n : Nat) (s : Synth V G) (i : Nat) (l r : Rat),
      s.active_voices.length - i = n →
      s.active_voices.Nodup →
      (∀ idx ∈ s.active_voices, idx < s.voices.length) →
      (processLoop impl s i l r).1.program = s.program ∧
      (processLoop impl s i l r).1.globals = s.globals ∧
      (processLoop impl s i l r).1._sample_rate = s._sample_rate ∧
      (processLoop impl s i l r).1.voices.length = s.voices.length ∧
      (∀ idx, idx ∈ s.active_voices.drop i →
        (processLoop impl s i l r).1.voices[idx]?
          = procV impl s.program s.globals s.voices idx) ∧
      (∀ idx, idx ∉ s.active_voices.drop i →
        (processLoop impl s i l r).1.voices[idx]? = s.voices[idx]?) ∧
      (processLoop impl s i l r).2.1
        = l + ((s.active_voices.drop i).map (outL impl s.program s.globals s.voices)).sum ∧
      (processLoop impl s i l r).2.2
        = r + ((s.active_voices.drop i).map (outR impl s.program s.globals s.voices)).sum ∧
      (∃ A, (processLoop impl s i l r).1.active_voices = s.active_voices.take i ++ A ∧
        A.Perm ((s.active_voices.drop i).filter
          (survives impl s.program s.globals s.voices))) ∧
      (∃ B, (processLoop impl s i l r).1.free_voices = s.free_voices ++ B ∧
        B.Perm ((s.active_voices.drop i).filter
          (fun idx => ! survives impl s.program s.globals s.voices idx)))
  | 0, s, i, l, r, hn, hnd, hlt => by
    have h : ¬ i < s.active_voices.length := by omega
    have hdrop : s.active_voices.drop i = [] := List.drop_eq_nil_of_le (by omega)
    have htake : s.active_voices.take i = s.active_voices := List.take_of_length_le (by omega)
    rw [processLoop_exit impl s i l r h]
    refine ⟨rfl, rfl, rfl, rfl, ?_, ?_, ?_, ?_, ⟨[], ?_, ?_⟩, ⟨[], ?_, ?_⟩⟩
    · intro idx hidx
      rw [hdrop] at hidx
      simp at hidx
    · intro idx _
      rfl
    · simp [hdrop]
    · simp [hdrop]
    · simp [htake]
    · simp [hdrop]
    · simp
    · simp [hdrop]
  | n + 1, s, i, l, r, hn, hnd, hlt => by
    have h : i < s.active_voices.length := by omega
    have hmem : s.active_voices[i] ∈ s.active_voices := List.getElem_mem h
    have hvlt : s.active_voices[i] < s.voices.length := hlt _ hmem
    obtain ⟨va, hva⟩ : ∃ v, s.voices[s.active_voices[i]]? = some v :=
      ⟨_, List.getElem?_eq_getElem hvlt⟩
    have hnotin : s.active_voices[i] ∉ s.active_voices.drop (i + 1) := by
      intro hin
      have hnd2 : (s.active_voices.take (i + 1) ++ s.active_voices.drop (i + 1)).Nodup := by
        rw [List.take_append_drop]
        exact hnd
      have hdisj := (List.nodup_append.mp hnd2).2.2
      have hmem_take : s.active_voices[i] ∈ s.active_voices.take (i + 1) := by
        have hq : (s.active_voices.take (i + 1))[i]? = some s.active_voices[i] := by
          rw [List.getElem?_take]
          simp [List.getElem?_eq_getElem h]
        exact List.getElem?_mem hq
      exact hdisj hmem_take hin
    have hdropsplit : s.active_voices.drop i
        = s.active_voices[i] :: s.active_voices.drop (i + 1) :=
      List.drop_eq_getElem_cons h
    have hset_a : (s.voices.set s.active_voices[i]
          (impl.process va s.program s.globals))[s.active_voices[i]]?
        = some (impl.process va s.program s.globals) := List.getElem?_set_self hvlt
    have hset_ne : ∀ idx, idx ≠ s.active_voices[i] →
        (s.voices.set s.active_voices[i]
          (impl.process va s.program s.globals))[idx]? = s.voices[idx]? :=
      fun idx hne => List.getElem?_set_ne (fun he => hne he.symm)
    have htail_ne : ∀ idx ∈ s.active_voices.drop (i + 1), idx ≠ s.active_voices[i] :=
      fun idx hidx he => hnotin (he ▸ hidx)
    have hcongr : ∀ idx ∈ s.active_voices.drop (i + 1),
        procV impl s.program s.globals
            (s.voices.set s.active_voices[i] (impl.process va s.program s.globals)) idx
          = procV impl s.program s.globals s.voices idx ∧
        outL impl s.program s.globals
            (s.voices.set s.active_voices[i] (impl.process va s.program s.globals)) idx
          = outL impl s.program s.globals s.voices idx ∧
        outR impl s.program s.globals
            (s.voices.set s.active_voices[i] (impl.process va s.program s.globals)) idx
          = outR impl s.program s.globals s.voices idx ∧
        survives impl s.program s.globals
            (s.voices.set s.active_voices[i] (impl.process va s.program s.globals)) idx
          = survives impl s.program s.globals s.voices idx :=
      fun idx hidx =>
        loopBody_congr impl s.program s.globals _ s.voices idx
          (hset_ne idx (htail_ne idx hidx))
    have hprocVa : procV impl s.program s.globals s.voices s.active_voices[i]
        = some (impl.process va s.program s.globals) := by
      simp [procV, hva]
    cases hb : impl.is_off (impl.process va s.program s.globals) s.program with
    | true =>
      have hsurva : survives impl s.program s.globals s.voices s.active_voices[i] = false := by
        simp [survives, hprocVa, hb]
      rw [processLoop_step_died impl s i l r h va hva hb]
      have hlen' : (swapRemove s.active_voices i).length - i = n := by
        rw [swapRemove_length _ _ (List.ne_nil_of_length_pos (by omega))]
        omega
      have hperm_erase := swapRemove_perm_eraseIdx s.active_voices i h
      have hnd' : (swapRemove s.active_voices i).Nodup :=
        hperm_erase.nodup_iff.mpr ((List.eraseIdx_sublist s.active_voices i).nodup hnd)
      have hsub' : ∀ idx ∈ swapRemove s.active_voices i, idx < s.voices.length :=
        fun idx hidx =>
          hlt idx ((List.eraseIdx_sublist s.active_voices i).subset
            (hperm_erase.mem_iff.mp hidx))
      have hdropPerm := swapRemove_drop_perm s.active_voices i h
      have ih := processLoop_spec impl n
        { s with
            voices := s.voices.set s.active_voices[i] (impl.process va s.program s.globals),
            active_voices := swapRemove s.active_voices i,
            free_voices := vecPush s.free_voices s.active_voices[i] }
        i (l + (impl.output (impl.process va s.program s.globals) s.program).1)
          (r + (impl.output (impl.process va s.program s.globals) s.program).2)
        hlen' hnd' (by simpa using hsub')
      simp only [List.length_set] at ih
      obtain ⟨ihprog, ihglob, ihsr, ihlen, ihproc, ihkeep, ihsuml, ihsumr,
        ⟨A, hAeq, hAperm⟩, ⟨B, hBeq, hBperm⟩⟩ := ih
      have hanotin' : s.active_voices[i] ∉ (swapRemove s.active_voices i).drop i :=
        fun hin => hnotin (hdropPerm.mem_iff.mp hin)
      refine ⟨ihprog, ihglob, ihsr, ihlen, ?_, ?_, ?_, ?_, ⟨A, ?_, ?_⟩, ?_⟩
      · intro idx hidx
        rw [hdropsplit] at hidx
        rcases List.mem_cons.mp hidx with he | htail
        · subst he
          rw [ihkeep _ hanotin', hset_a, hprocVa]
        · rw [ihproc idx (hdropPerm.mem_iff.mpr htail), (hcongr idx htail).1]
      · intro idx hidx
        rw [hdropsplit] at hidx
        have hne : idx ≠ s.active_voices[i] :=
          fun he => hidx (he ▸ List.mem_cons_self _ _)
        have htail : idx ∉ s.active_voices.drop (i + 1) :=
          fun hm => hidx (List.mem_cons_of_mem _ hm)
        rw [ihkeep idx (fun hm => htail (hdropPerm.mem_iff.mp hm))]
        exact hset_ne idx hne
      · rw [ihsuml,
          List.map_eq_map_iff.mpr
            (fun x hx => (hcongr x (hdropPerm.mem_iff.mp hx)).2.1),
          (hdropPerm.map (outL impl s.program s.globals s.voices)).sum_eq,
          hdropsplit, List.map_cons, List.sum_cons]
        have : outL impl s.program s.globals s.voices s.active_voices[i]
            = (impl.output (impl.process va s.program s.globals) s.program).1 := by
          simp [outL, hprocVa]
        rw [this]
        ring
      · rw [ihsumr,
          List.map_eq_map_iff.mpr
            (fun x hx => (hcongr x (hdropPerm.mem_iff.mp hx)).2.2.1),
          (hdropPerm.map (outR impl s.program s.globals s.voices)).sum_eq,
          hdropsplit, List.map_cons, List.sum_cons]
        have : outR impl s.program s.globals s.voices s.active_voices[i]
            = (impl.output (impl.process va s.program s.globals) s.program).2 := by
          simp [outR, hprocVa]
        rw [this]
        ring
      · rw [hAeq, swapRemove_take s.active_voices i h]
      · rw [List.filter_congr
            (fun x hx => (hcongr x (hdropPerm.mem_iff.mp hx)).2.2.2)] at hAperm
        rw [hdropsplit, List.filter_cons_of_neg (by simp [hsurva])]
        exact hAperm.trans (hdropPerm.filter (survives impl s.program s.globals s.voices))
      · refine ⟨s.active_voices[i] :: B, ?_, ?_⟩
        · rw [hBeq]
          simp [vecPush]
        · have hfB : ((swapRemove s.active_voices i).drop i).filter
                (fun idx => ! survives impl s.program s.globals
                  (s.voices.set s.active_voices[i]
                    (impl.process va s.program s.globals)) idx)
              = ((swapRemove s.active_voices i).drop i).filter
                (fun idx => ! survives impl s.program s.globals s.voices idx) :=
            List.filter_congr
              (fun x hx => by rw [(hcongr x (hdropPerm.mem_iff.mp hx)).2.2.2])
          rw [hfB] at hBperm
          rw [hdropsplit, List.filter_cons_of_pos (by simp [hsurva])]
          exact (hBperm.trans
            (hdropPerm.filter
              (fun idx => ! survives impl s.program s.globals s.voices idx))).cons _
    | false =>
      have hsurva : survives impl s.program s.globals s.voices s.active_voices[i] = true := by
        simp [survives, hprocVa, hb]
      rw [processLoop_step_alive impl s i l r h va hva hb]
      have hlen' : s.active_voices.length - (i + 1) = n := by omega
      have ih := processLoop_spec impl n
        { s with
            voices := s.voices.set s.active_voices[i] (impl.process va s.program s.globals) }
        (i + 1)
        (l + (impl.output (impl.process va s.program s.globals) s.program).1)
        (r + (impl.output (impl.process va s.program s.globals) s.program).2)
        hlen' hnd (by simpa using hlt)
      simp only [List.length_set] at ih
      obtain ⟨ihprog, ihglob, ihsr, ihlen, ihproc, ihkeep, ihsuml, ihsumr,
        ⟨A, hAeq, hAperm⟩, ⟨B, hBeq, hBperm⟩⟩ := ih
      have htakesucc : s.active_voices.take (i + 1)
          = s.active_voices.take i ++ [s.active_voices[i]] := by
        rw [List.take_succ]
        simp [List.getElem?_eq_getElem h]
      refine ⟨ihprog, ihglob, ihsr, ihlen, ?_, ?_, ?_, ?_,
        ⟨s.active_voices[i] :: A, ?_, ?_⟩, ⟨B, ?_, ?_⟩⟩
      · intro idx hidx
        rw [hdropsplit] at hidx
        rcases List.mem_cons.mp hidx with he | htail
        · subst he
          rw [ihkeep _ hnotin, hset_a, hprocVa]
        · rw [ihproc idx htail, (hcongr idx htail).1]
      · intro idx hidx
        rw [hdropsplit] at hidx
        have hne : idx ≠ s.active_voices[i] :=
          fun he => hidx (he ▸ List.mem_cons_self _ _)
        have htail : idx ∉ s.active_voices.drop (i + 1) :=
          fun hm => hidx (List.mem_cons_of_mem _ hm)
        rw [ihkeep idx htail]
        exact hset_ne idx hne
      · rw [ihsuml,
          List.map_eq_map_iff.mpr (fun x hx => (hcongr x hx).2.1),
          hdropsplit, List.map_cons, List.sum_cons]
        have : outL impl s.program s.globals s.voices s.active_voices[i]
            = (impl.output (impl.process va s.program s.globals) s.program).1 := by
          simp [outL, hprocVa]
        rw [this]
        ring
      · rw [ihsumr,
          List.map_eq_map_iff.mpr (fun x hx => (hcongr x hx).2.2.1),
          hdropsplit, List.map_cons, List.sum_cons]
        have : outR impl s.program s.globals s.voices s.active_voices[i]
            = (impl.output (impl.process va s.program s.globals) s.program).2 := by
          simp [outR, hprocVa]
        rw [this]
        ring
      · rw [hAeq, htakesucc, List.append_assoc]
        rfl
      · rw [List.filter_congr (fun x hx => (hcongr x hx).2.2.2)] at hAperm
        rw [hdropsplit, List.filter_cons_of_pos (by simp [hsurva])]
        exact hAperm.cons _
      · exact hBeq
      · have hfB : (s.active_voices.drop (i + 1)).filter
              (fun idx => ! survives impl s.program s.globals
                (s.voices.set s.active_voices[i]
                  (impl.process va s.program s.globals)) idx)
            = (s.active_voices.drop (i + 1)).filter
              (fun idx => ! survives impl s.program s.globals s.voices idx) :=
          List.filter_congr (fun x hx => by rw [(hcongr x hx).2.2.2])
        rw [hfB] at hBperm
        rw [hdropsplit, List.filter_cons_of_neg (by simp [hsurva])]
        exact hBperm

/-! ### C4 / C5: corollaries of the loop specification -/

/-- **C4.** One `process()` call advances every voice whose index is in
`active_voices` at the start of the call by exactly one sample — each such
voice exactly once despite the in-place removals, no other voice touched —
returns the plain sums of their left and right outputs (no clipping,
limiting or scaling), and advances the program's smoothing
(`update_params`) exactly once regardless of how many voices were active. -/
theorem process_advances_each_active_once (impl : VoiceImpl V G) (s : Synth V G)
    (hnd : s.active_voices.Nodup)
    (hlt : ∀ idx ∈ s.active_voices, idx < s.voices.length) :
    (∀ idx, idx ∈ s.active_voices →
      (Synth.process impl s).1.voices[idx]?
        = procV impl s.program s.globals s.voices idx) ∧
    (∀ idx, idx ∉ s.active_voices →
      (Synth.process impl s).1.voices[idx]? = s.voices[idx]?) ∧
    (Synth.process impl s).2.1
      = (s.active_voices.map (outL impl s.program s.globals s.voices)).sum ∧
    (Synth.process impl s).2.2
      = (s.active_voices.map (outR impl s.program s.globals s.voices)).sum ∧
    (Synth.process impl s).1.program = s.program.update_params := by
  have hm := processLoop_spec impl s.active_voices.length s 0 0 0 (by omega) hnd hlt
  obtain ⟨hprog, _hglob, _hsr, _hlen, hproc, hkeep, hsuml, hsumr, _, _⟩ := hm
  rw [List.drop_zero] at hproc hkeep hsuml hsumr
  refine ⟨?_, ?_, ?_, ?_, ?_⟩
  · intro idx hidx
    exact hproc idx hidx
  · intro idx hidx
    exact hkeep idx hidx
  · show (processLoop impl s 0 0 0).2.1 = _
    rw [hsuml, zero_add]
  · show (processLoop impl s 0 0 0).2.2 = _
    rw [hsumr, zero_add]
  · show (processLoop impl s 0 0 0).1.program.update_params = _
    rw [hprog]

/-- **C5.** Every voice whose completion predicate holds after its one-sample
advance during `process()` is moved from `active_voices` to `free_voices`
exactly once (its free count rises by exactly one and it leaves the active
set), the surviving voices are exactly the remaining active ones, and when
any voice was freed the top of the free LIFO stack is one of the just-freed
indices, so the very next `NoteOn` reuses it. -/
theorem process_recycles_finished_voices (impl : VoiceImpl V G) (s : Synth V G)
    (hnd : s.active_voices.Nodup)
    (hlt : ∀ idx ∈ s.active_voices, idx < s.voices.length) :
    ∃ freed,
      freed.Perm (s.active_voices.filter
        (fun idx => ! survives impl s.program s.globals s.voices idx)) ∧
      (Synth.process impl s).1.free_voices = s.free_voices ++ freed ∧
      (Synth.process impl s).1.active_voices.Perm
        (s.active_voices.filter (survives impl s.program s.globals s.voices)) ∧
      (∀ idx, idx ∈ s.active_voices →
        survives impl s.program s.globals s.voices idx = false →
        (Synth.process impl s).1.free_voices.count idx
            = s.free_voices.count idx + 1 ∧
        idx ∉ (Synth.process impl s).1.active_voices) ∧
      (freed ≠ [] → ∀ key velocity, ∃ b ∈ freed,
        Synth.allocate_voice (Synth.process impl s).1 key velocity
          = some (b, (Synth.process impl s).1.free_voices.dropLast)) := by
  have hm := processLoop_spec impl s.active_voices.length s 0 0 0 (by omega) hnd hlt
  obtain ⟨_, _, _, _, _, _, _, _, ⟨A, hAeq, hAperm⟩, ⟨B, hBeq, hBperm⟩⟩ := hm
  rw [List.drop_zero] at hAperm hBperm
  rw [List.take_zero, List.nil_append] at hAeq
  have hactive : (Synth.process impl s).1.active_voices = A := hAeq
  have hfree : (Synth.process impl s).1.free_voices = s.free_voices ++ B := hBeq
  have hfilter_nodup : (s.active_voices.filter
      (fun idx => ! survives impl s.program s.globals s.voices idx)).Nodup :=
    hnd.filter _
  refine ⟨B, hBperm, hfree, ?_, ?_, ?_⟩
  · rw [hactive]
    exact hAperm
  · intro idx hidx hdead
    have hmemf : idx ∈ s.active_voices.filter
        (fun idx => ! survives impl s.program s.globals s.voices idx) :=
      List.mem_filter.mpr ⟨hidx, by simp [hdead]⟩
    constructor
    · rw [hfree, List.count_append, hBperm.count_eq,
        List.count_eq_one_of_mem hfilter_nodup hmemf]
    · rw [hactive]
      intro hmemA
      have := List.mem_filter.mp (hAperm.mem_iff.mp hmemA)
      rw [hdead] at this
      exact Bool.false_ne_true this.2
  · intro hBne key velocity
    refine ⟨B.getLast hBne, List.getLast_mem hBne, ?_⟩
    have hlast : (Synth.process impl s).1.free_voices.getLast? = some (B.getLast hBne) := by
      rw [hfree, List.getLast?_append_of_ne_nil s.free_voices hBne,
        List.getLast?_eq_getLast B hBne]
    simp [Synth.allocate_voice, vecPop, hlast]

/-! ### C1: the active/free partition invariant -/

/-- The voice-pool bookkeeping invariant: the two index collections together
are a permutation of `{0, …, maxVoices-1}`, and the pool keeps its
construction size. -/
def PoolInv (s : Synth V G) : Prop :=
  (s.active_voices ++ s.free_voices).Perm (List.range maxVoices) ∧
  s.voices.length = maxVoices

theorem poolInv_new (impl : VoiceImpl V G) (sample_rate : Rat)
    (program : Program) (globals : G) :
    PoolInv (Synth.new impl sample_rate program globals) := by
  constructor
  · show (([] : List Nat)
        ++ (List.range maxVoices).map (fun index => maxVoices - index - 1)).Perm
      (List.range maxVoices)
    decide
  · show ((List.range maxVoices).map
        (fun _ => impl.new sample_rate program)).length = maxVoices
    simp

theorem noteOffStep_length (impl : VoiceImpl V G) (prog : Program) (key : Nat)
    (vs : List V) (a : Nat) : (noteOffStep impl prog key vs a).length = vs.length := by
  unfold noteOffStep
  cases vs[a]? with
  | none => rfl
  | some voice =>
    by_cases hk : impl.get_key voice prog = key
    · simp [hk]
    · simp [hk]

theorem noteOffFold_length (impl : VoiceImpl V G) (prog : Program) (key : Nat) :
    ∀ (l : List Nat) (vs : List V),
      (l.foldl (noteOffStep impl prog key) vs).length = vs.length
  | [], _ => rfl
  | a :: rest, vs => by
    rw [List.foldl_cons,
      noteOffFold_length impl prog key rest (noteOffStep impl prog key vs a),
      noteOffStep_length]

theorem poolInv_applyMessage (impl : VoiceImpl V G) (s : Synth V G)
    (m : Message) (h : PoolInv s) : PoolInv (applyMessage impl s m) := by
  obtain ⟨hperm, hlen⟩ := h
  cases m with
  | noteOn key velocity =>
    show PoolInv (Synth.note_on impl s key velocity)
    unfold Synth.note_on Synth.allocate_voice vecPop
    cases hl : s.free_voices.getLast? with
    | none => exact ⟨hperm, hlen⟩
    | some index =>
      have hfr : s.free_voices.dropLast ++ [index] = s.free_voices :=
        List.dropLast_append_getLast? index hl
      have hstep : ((s.active_voices ++ [index]) ++ s.free_voices.dropLast).Perm
          (s.active_voices ++ s.free_voices) := by
        conv_rhs => rw [← hfr]
        rw [List.append_assoc]
        exact List.Perm.append_left s.active_voices List.perm_append_comm
      simp only [vecPush]
      cases hv : (s.voices)[index]? with
      | some voice => exact ⟨hstep.trans hperm, by simpa using hlen⟩
      | none => exact ⟨hstep.trans hperm, hlen⟩
  | noteOff key velocity =>
    exact ⟨hperm, by
      show (s.active_voices.foldl (noteOffStep impl s.program key) s.voices).length = _
      rw [noteOffFold_length]
      exact hlen⟩
  | param param_ref value =>
    simp only [applyMessage]
    cases hp : s.program.get_param param_ref with
    | some p => exact ⟨hperm, hlen⟩
    | none => exact ⟨hperm, hlen⟩
  | paramChange param_ref change =>
    simp only [applyMessage]
    cases hp : s.program.get_param param_ref with
    | some p => exact ⟨hperm, hlen⟩
    | none => exact ⟨hperm, hlen⟩
  | modulationAmount param_ref source_ref amount =>
    simp only [applyMessage]
    cases hs : s.program.get_source source_ref with
    | some src =>
      cases hp : s.program.get_param param_ref with
      | some p => exact ⟨hperm, hlen⟩
      | none => exact ⟨hperm, hlen⟩
    | none => exact ⟨hperm, hlen⟩

theorem poolInv_prepare (impl : VoiceImpl V G) (s : Synth V G)
    (events : List Event) (h : PoolInv s) :
    PoolInv (Synth.prepare impl s events) := by
  induction events generalizing s with
  | nil => exact h
  | cons e rest ih => exact ih _ (poolInv_applyMessage impl s e.message h)

theorem poolInv_process (impl : VoiceImpl V G) (s : Synth V G) (h : PoolInv s) :
    PoolInv (Synth.process impl s).1 := by
  obtain ⟨hperm, hlen⟩ := h
  have hndall : (s.active_voices ++ s.free_voices).Nodup :=
    hperm.nodup_iff.mpr (List.nodup_range _)
  have hnd : s.active_voices.Nodup := (List.nodup_append.mp hndall).1
  have hsub : ∀ idx ∈ s.active_voices, idx < s.voices.length := by
    intro idx hidx
    have hr : idx ∈ List.range maxVoices :=
      hperm.mem_iff.mp (List.mem_append.mpr (Or.inl hidx))
    rw [hlen]
    exact List.mem_range.mp hr
  have hm := processLoop_spec impl s.active_voices.length s 0 0 0 (by omega) hnd hsub
  obtain ⟨_, _, _, hlen', _, _, _, _, ⟨A, hAeq, hAperm⟩, ⟨B, hBeq, hBperm⟩⟩ := hm
  rw [List.drop_zero] at hAperm hBperm
  rw [List.take_zero, List.nil_append] at hAeq
  constructor
  · show ((processLoop impl s 0 0 0).1.active_voices
      ++ (processLoop impl s 0 0 0).1.free_voices).Perm (List.range maxVoices)
    rw [hAeq, hBeq]
    refine List.Perm.trans ?_ hperm
    refine List.Perm.trans (List.Perm.append hAperm
      (List.Perm.append_left s.free_voices hBperm)) ?_
    refine List.Perm.trans (List.Perm.append_left _ List.perm_append_comm) ?_
    rw [← List.append_assoc]
    exact List.Perm.append_right s.free_voices
      (List.filter_append_perm (survives impl s.program s.globals s.voices) s.active_voices)
  · show (processLoop impl s 0 0 0).1.voices.length = maxVoices
    rw [hlen', hlen]

theorem reachable_poolInv (impl : VoiceImpl V G) (s : Synth V G)
    (h : Reachable impl s) : PoolInv s := by
  induction h with
  | new sample_rate program globals => exact poolInv_new impl sample_rate program globals
  | prepare s' events _ ih => exact poolInv_prepare impl s' events ih
  | process s' _ ih => exact poolInv_process impl s' ih

/-- **C1.** In every reachable state (after `new` and any sequence of
`prepare` / `process` calls), the index set `{0, …, maxVoices-1}` is exactly
partitioned between `active_voices` and `free_voices`: their union is the
full index set, they are disjoint, and each index occurs exactly once in
the two collections combined. -/
theorem reachable_voice_partition (impl : VoiceImpl V G) (s : Synth V G)
    (h : Reachable impl s) :
    (∀ idx, idx < maxVoices ↔ (idx ∈ s.active_voices ∨ idx ∈ s.free_voices)) ∧
    (∀ idx, ¬ (idx ∈ s.active_voices ∧ idx ∈ s.free_voices)) ∧
    (∀ idx, idx < maxVoices →
      s.active_voices.count idx + s.free_voices.count idx = 1) := by
  obtain ⟨hperm, _⟩ := reachable_poolInv impl s h
  have hndall : (s.active_voices ++ s.free_voices).Nodup :=
    hperm.nodup_iff.mpr (List.nodup_range _)
  refine ⟨?_, ?_, ?_⟩
  · intro idx
    constructor
    · intro hlt2
      exact List.mem_append.mp (hperm.mem_iff.mpr (List.mem_range.mpr hlt2))
    · intro hor
      exact List.mem_range.mp (hperm.mem_iff.mp (List.mem_append.mpr hor))
  · rintro idx ⟨ha, hf⟩
    exact (List.nodup_append.mp hndall).2.2 ha hf
  · intro idx hlt2
    have hcount : (s.active_voices ++ s.free_voices).count idx = 1 := by
      rw [hperm.count_eq]
      exact List.count_eq_one_of_mem (List.nodup_range _) (List.mem_range.mpr hlt2)
    rw [List.count_append] at hcount
    exact hcount

/-- Witness for C4: both active voices of `testSynth3` advance one tick,
the returned stereo pair is the plain sum `(1+1, 2+2)`, and the smoothing
counter advances once. -/
theorem process_advances_each_active_once_witness :
    testSynth3.active_voices.Nodup ∧
    (Synth.process testImpl testSynth3).1.voices[1]?
      = some { key := 62, ticks := 1 } ∧
    (Synth.process testImpl testSynth3).2.1 = 2 ∧
    (Synth.process testImpl testSynth3).2.2 = 4 ∧
    (Synth.process testImpl testSynth3).1.program = testProgram.update_params := by
  have h := process_advances_each_active_once testImpl testSynth3 (by decide) (by decide)
  refine ⟨by decide, ?_, ?_, ?_, h.2.2.2.2⟩
  · rw [h.1 1 (by decide)]
    decide
  · rw [h.2.2.1]
    show (([0, 1] : List Nat).map
      (outL testImpl testProgram () testSynth3.voices)).sum = 2
    simp [outL, procV, testImpl, testSynth3]
    norm_num
  · rw [h.2.2.2.1]
    show (([0, 1] : List Nat).map
      (outR testImpl testProgram () testSynth3.voices)).sum = 4
    simp [outR, procV, testImpl, testSynth3]
    norm_num

/-- Witness for C5: processing `testSynth3` finishes voice `0`: its index is
pushed onto the free stack exactly once, it leaves the active set, it ends
on top of the free LIFO stack, and the very next `NoteOn` allocates it. -/
theorem process_recycles_finished_voices_witness :
    testSynth3.active_voices.Nodup ∧
    survives testImpl testSynth3.program testSynth3.globals testSynth3.voices 0
      = false ∧
    (Synth.process testImpl testSynth3).1.free_voices
      = testSynth3.free_voices ++ [0] ∧
    (Synth.process testImpl testSynth3).1.free_voices.count 0
      = testSynth3.free_voices.count 0 + 1 ∧
    0 ∉ (Synth.process testImpl testSynth3).1.active_voices ∧
    Synth.allocate_voice (Synth.process testImpl testSynth3).1 64 1
      = some (0, (Synth.process testImpl testSynth3).1.free_voices.dropLast) := by
  obtain ⟨freed, hfp, hfeq, _hap, hcount, htop⟩ :=
    process_recycles_finished_voices testImpl testSynth3 (by decide) (by decide)
  have hfilter : testSynth3.active_voices.filter
      (fun idx => ! survives testImpl testSynth3.program testSynth3.globals
        testSynth3.voices idx) = [0] := by decide
  have hfreed : freed = [0] := by
    rw [hfilter] at hfp
    exact List.perm_singleton.mp hfp
  subst hfreed
  have hc := hcount 0 (by decide) (by decide)
  obtain ⟨b, hb, halloc⟩ := htop (by simp) 64 1
  have hb0 : b = 0 := List.mem_singleton.mp hb
  subst hb0
  exact ⟨by decide, by decide, by rw [hfeq], hc.1, hc.2, halloc⟩

/-- Witness for C1 at the freshly constructed synth. -/
theorem reachable_voice_partition_witness :
    (∀ idx, idx < maxVoices
      ↔ (idx ∈ testSynth.active_voices ∨ idx ∈ testSynth.free_voices)) ∧
    (∀ idx, ¬ (idx ∈ testSynth.active_voices ∧ idx ∈ testSynth.free_voices)) ∧
    (∀ idx, idx < maxVoices →
      testSynth.active_voices.count idx + testSynth.free_voices.count idx = 1) :=
  reachable_voice_partition testImpl testSynth (Reachable.new 1 testProgram ())

end KiroSynth
